import Mathlib

/-!
Verification of the `cut-silence` video silence-removal tool.

This file gives a shallow embedding, in Lean 4, of the parts of the
Python source relevant to the specified behavior, and proves (or
refutes) the specified properties against it.

Modelling conventions:
* Python floats for media times and durations are modelled as exact
  rationals (`ℚ`); integer quantities as `ℕ`/`ℤ`.
* Filesystem state (which names exist in the output directory) is
  passed explicitly as a list of names.
* The external engine (ffmpeg/ffprobe) is a black box: its observable
  behavior for one invocation (exit status, whether the output file
  exists afterwards, the diagnostic lines it emits) is passed in as
  explicit parameters.
-/

/- ===================== analyzer.py ===================== -/

/-- Embedding of `VideoAnalyzer.calculate_non_silent_segments`
(`src/cut_silence/analyzer.py` lines 60-77).  The body in the source is
a TODO placeholder: it sets `non_silent_segments = []` and returns it,
ignoring all three arguments. -/
def calculate_non_silent_segments (silent_segments : List (ℚ × ℚ))
    (total_duration : ℚ) (padding : ℚ) : List (ℚ × ℚ) :=
  let non_silent_segments : List (ℚ × ℚ) := []
  non_silent_segments

/-- Embedding of `VideoAnalyzer.get_video_duration`
(`src/cut_silence/analyzer.py` lines 46-58).  The body in the source is
a TODO placeholder: it returns `0.0` for every path and can raise no
exception. -/
def get_video_duration (video_path : String) : ℚ :=
  0

/- ===================== concatenator.py ===================== -/

/-- Observable outcome of one `VideoConcatenator.concatenate_segments`
call: the returned boolean, whether the ffmpeg engine was invoked, and
how many ffprobe invocations `_estimate_total_duration` made. -/
structure ConcatOutcome where
  success : Bool
  invoked_ffmpeg : Bool
  ffprobe_calls : ℕ
  deriving Repr, DecidableEq

/-- Embedding of `VideoConcatenator.concatenate_segments`
(`src/cut_silence/concatenator.py` lines 26-118).  The engine's
behavior is summarized by `returncode` (exit status of the ffmpeg
invocation) and `output_exists` (whether `output_path` exists after
that invocation).  The source returns early with `False` on an empty
segment list; otherwise `_estimate_total_duration` probes every
segment, and a single ffmpeg invocation is made (copy branch for one
segment, concat-demuxer branch otherwise); in both branches
`success = (result.returncode == 0) and output_path.exists()`. -/
def concatenate_segments (segment_files : List String) (returncode : ℤ)
    (output_exists : Bool) : ConcatOutcome :=
  if segment_files.isEmpty then
    { success := false, invoked_ffmpeg := false, ffprobe_calls := 0 }
  else if segment_files.length = 1 then
    { success := (returncode == 0) && output_exists
      invoked_ffmpeg := true
      ffprobe_calls := segment_files.length }
  else
    { success := (returncode == 0) && output_exists
      invoked_ffmpeg := true
      ffprobe_calls := segment_files.length }

/- ===================== progress.py : summary ===================== -/

/-- Numeric values computed by `ProgressReporter.print_summary`
(`src/cut_silence/progress.py` lines 56-77) before formatting: the
reported `time_saved` and `reduction_percent`.  The source guards the
percentage behind `if input_duration > 0 ... else 0`. -/
def print_summary (input_duration output_duration : ℚ) : ℚ × ℚ :=
  let time_saved := input_duration - output_duration
  let reduction_percent :=
    if 0 < input_duration then time_saved / input_duration * 100 else 0
  (time_saved, reduction_percent)

/-- Python `int()` on a rational value: truncation toward zero. -/
def pyInt (q : ℚ) : ℤ :=
  if 0 ≤ q then ⌊q⌋ else ⌈q⌉

/-- Python float `%` for a positive right operand: `a - b * ⌊a / b⌋`
(the result takes the sign of the divisor). -/
def pyMod (a b : ℚ) : ℚ :=
  a - b * ⌊a / b⌋

/-- Python `f"{n:02d}"`: decimal rendering zero-padded to width two. -/
def pad2 (n : ℤ) : String :=
  if 0 ≤ n ∧ n < 10 then "0" ++ toString n else toString n

/-- Hours field of `ProgressReporter._format_time`:
`int(seconds // 3600)` — float floor-division followed by `int()` of an
integral value, i.e. `⌊seconds / 3600⌋`. -/
def format_hours (seconds : ℚ) : ℤ :=
  ⌊seconds / 3600⌋

/-- Minutes field of `ProgressReporter._format_time`:
`int((seconds % 3600) // 60)`; the `%` result is nonnegative, so the
composition is `⌊(seconds % 3600) / 60⌋`. -/
def format_minutes (seconds : ℚ) : ℤ :=
  ⌊pyMod seconds 3600 / 60⌋

/-- Seconds field of `ProgressReporter._format_time`:
`int(seconds % 60)`. -/
def format_secs (seconds : ℚ) : ℤ :=
  pyInt (pyMod seconds 60)

/-- Embedding of `ProgressReporter._format_time`
(`src/cut_silence/progress.py` lines 79-96): renders `HH:MM:SS` when
the hours field is positive, `MM:SS` otherwise. -/
def _format_time (seconds : ℚ) : String :=
  let hours := format_hours seconds
  let minutes := format_minutes seconds
  let secs := format_secs seconds
  if 0 < hours then
    pad2 hours ++ ":" ++ pad2 minutes ++ ":" ++ pad2 secs
  else
    pad2 minutes ++ ":" ++ pad2 secs

/- ===================== ffmpeg_runner.py ===================== -/

/-- Result of matching `FFmpegProgressRunner.TIME_PATTERN`
(`time=(\d+):(\d+):(\d+\.\d+)`) against one stderr line: the three
captured groups, as the numbers they denote.  The digit groups force
`hh, mm : ℕ` and a nonnegative seconds group. -/
structure TimeMatch where
  hh : ℕ
  mm : ℕ
  ss : ℚ

/-- Embedding of `FFmpegProgressRunner._parse_time`
(`src/cut_silence/ffmpeg_runner.py` lines 113-129) over a
pre-matched line, abstracting the regex engine: a line either carries
a `time=HH:MM:SS.ms` match or it does not.  On a match the source
returns `hours * 3600 + minutes * 60 + seconds`. -/
def parse_time (line : Option TimeMatch) : Option ℚ :=
  line.map fun t => t.hh * 3600 + t.mm * 60 + t.ss

/-- One iteration of the stderr-reading loop of
`FFmpegProgressRunner.run_with_progress`
(`src/cut_silence/ffmpeg_runner.py` lines 81-91) acting on the
progress-bar position `pbar.n`: when the line parses to a time that is
at most `total_duration`, the position is assigned that time;
otherwise it is left unchanged. -/
def progressUpdate (total_duration n : ℚ) (line : Option TimeMatch) : ℚ :=
  match parse_time line with
  | some current_time => if current_time ≤ total_duration then current_time else n
  | none => n

/-- Successive values of `pbar.n` over a whole stderr stream, one entry
per line read, starting from position `n` (the bar starts at `0`). -/
def progressStates (total_duration n : ℚ) : List (Option TimeMatch) → List ℚ
  | [] => []
  | line :: rest =>
    let n' := progressUpdate total_duration n line
    n' :: progressStates total_duration n' rest

/- ===================== progress.py : progress bars ===================== -/

/-- State of one `tqdm` bar created by `ProgressReporter`: its
constructor arguments, its position `n`, and whether it is still
open (not yet closed). -/
structure TqdmBar where
  total : ℤ
  desc : String
  n : ℤ
  is_open : Bool

/-- Replace the element at index `i` by `f` of itself (out-of-range
indices leave the list unchanged). -/
def modifyAt (f : α → α) : List α → ℕ → List α
  | [], _ => []
  | a :: l, 0 => f a :: l
  | a :: l, i + 1 => a :: modifyAt f l i

/-- Close the bar at index `i`. -/
def closeBarAt (bars : List TqdmBar) (i : ℕ) : List TqdmBar :=
  modifyAt (fun b => { b with is_open := false }) bars i

/-- State of a `ProgressReporter` (`src/cut_silence/progress.py`):
`bars` records every `tqdm` bar created so far, in creation order;
`current_bar` is the index of the bar held by `self.current_bar`, or
`none` when that attribute is `None`. -/
structure ProgressReporter where
  verbose : Bool
  bars : List TqdmBar
  current_bar : Option ℕ

/-- Truthiness of a `tqdm` bar under a Python `if`: `tqdm.__bool__`
returns `self.total > 0` when a total was supplied, and
`start_progress` always supplies one.  So `if self.current_bar:` is
true only when the attribute is not `None` AND the referenced bar's
total is positive — a zero- or negative-total bar is falsy. -/
def TqdmBar.truthy (b : TqdmBar) : Prop :=
  0 < b.total

instance (b : TqdmBar) : Decidable b.truthy :=
  inferInstanceAs (Decidable (0 < b.total))

/-- Embedding of `ProgressReporter.start_progress`
(`src/cut_silence/progress.py` lines 22-38): if `self.current_bar` is
truthy (not `None` and its bar has positive total) that bar is closed
first; then a fresh open bar is created and becomes the current bar.
A falsy current bar (total `≤ 0`) is NOT closed — the guard is
`if self.current_bar:`, which consults `tqdm.__bool__`. -/
def ProgressReporter.start_progress (r : ProgressReporter)
    (description : String) (total : ℤ) : ProgressReporter :=
  let bars :=
    match r.current_bar with
    | some i =>
      match r.bars[i]? with
      | some b => if b.truthy then closeBarAt r.bars i else r.bars
      | none => r.bars
    | none => r.bars
  { r with
    bars := bars ++ [{ total := total, desc := description, n := 0, is_open := true }]
    current_bar := some bars.length }

/-- Embedding of `ProgressReporter.update_progress`
(`src/cut_silence/progress.py` lines 40-48): advances the current
bar's position by `amount` when `self.current_bar` is truthy; a
`None` or falsy (total `≤ 0`) current bar is left untouched. -/
def ProgressReporter.update_progress (r : ProgressReporter) (amount : ℤ) :
    ProgressReporter :=
  match r.current_bar with
  | some i =>
    match r.bars[i]? with
    | some b =>
      if b.truthy then
        { r with bars := modifyAt (fun b => { b with n := b.n + amount }) r.bars i }
      else r
    | none => r
  | none => r

/-- Embedding of `ProgressReporter.finish_progress`
(`src/cut_silence/progress.py` lines 50-54): closes the current bar
and clears `current_bar` when `self.current_bar` is truthy; with a
`None` or falsy (total `≤ 0`) current bar it does nothing. -/
def ProgressReporter.finish_progress (r : ProgressReporter) : ProgressReporter :=
  match r.current_bar with
  | some i =>
    match r.bars[i]? with
    | some b =>
      if b.truthy then
        { r with bars := closeBarAt r.bars i, current_bar := none }
      else r
    | none => r
  | none => r

/-- Well-formedness of a reporter state: `current_bar` is in range,
every open bar is the current one, and every open bar has positive
total (so a current open bar is truthy and the guards behave as a
not-`None` test). -/
def ProgressReporter.Inv (r : ProgressReporter) : Prop :=
  (∀ i, r.current_bar = some i → i < r.bars.length) ∧
  (∀ (j : ℕ) (b : TqdmBar), r.bars[j]? = some b → b.is_open = true →
    r.current_bar = some j) ∧
  (∀ (j : ℕ) (b : TqdmBar), r.bars[j]? = some b → b.is_open = true →
    0 < b.total)

/-- At most one progress bar is open. -/
def ProgressReporter.atMostOneOpen (r : ProgressReporter) : Prop :=
  ∀ (i j : ℕ) (bi bj : TqdmBar), r.bars[i]? = some bi → r.bars[j]? = some bj →
    bi.is_open = true → bj.is_open = true → i = j

/- ===================== concatenator.py : output naming ===================== -/

/-- Decimal digit to its character, as produced by Python string
formatting of an integer (inputs are always `< 10`). -/
def digitChar (d : ℕ) : Char :=
  match d with
  | 0 => '0' | 1 => '1' | 2 => '2' | 3 => '3' | 4 => '4'
  | 5 => '5' | 6 => '6' | 7 => '7' | 8 => '8' | 9 => '9'
  | _ => '*'

/-- Little-endian decimal digits of `n`, computed with explicit fuel so
that the definition is structurally recursive (`fuel ≥ n` suffices). -/
def decDigitsRev (fuel n : ℕ) : List ℕ :=
  match fuel, n with
  | 0, _ => []
  | _ + 1, 0 => []
  | f + 1, m + 1 => ((m + 1) % 10) :: decDigitsRev f ((m + 1) / 10)

/-- Decimal rendering of a natural number, as produced by Python
`f"...{counter}..."` interpolation. -/
def natToString (n : ℕ) : String :=
  if n = 0 then "0" else ⟨((decDigitsRev n n).reverse.map digitChar)⟩

/-- The sequence of file names probed by
`VideoConcatenator.generate_output_path` for a given stem, suffix and
extension: first `f"{stem}{suffix}{ext}"`, then
`f"{stem}{suffix}_{counter}{ext}"` for `counter = 1, 2, ...`. -/
def candName (stem sfx ext : String) : ℕ → String
  | 0 => stem ++ sfx ++ ext
  | k + 1 => stem ++ sfx ++ "_" ++ natToString (k + 1) ++ ext

/-- The `while output_path.exists()` probe loop of
`generate_output_path`, with explicit fuel: starting from candidate
index `k`, return the first candidate that is not among the existing
names (falling back to the current candidate when fuel runs out; the
fuel chosen below is provably sufficient). -/
def searchFree (names : List String) (cand : ℕ → String) : ℕ → ℕ → String
  | 0, k => cand k
  | fuel + 1, k => if cand k ∈ names then searchFree names cand fuel (k + 1) else cand k

/-- Embedding of `VideoConcatenator.generate_output_path`
(`src/cut_silence/concatenator.py` lines 166-190).  The input path is
given by its `stem` and `suffix` (extension) as computed by `pathlib`;
`names` is the set of file names existing in the parent directory,
against which `output_path.exists()` is tested. -/
def generate_output_path (names : List String) (stem ext : String)
    (sfx : String) : String :=
  searchFree names (candName stem sfx ext) (names.length + 2) 0

/- ===================== claim theorems ===================== -/

/-- Claim C1: the specification says that for every `total_duration > 0`
an empty SilenceReport inverts to the single speech interval
`[0, total_duration)`.  The source body of
`calculate_non_silent_segments` is an unimplemented TODO placeholder;
evaluated at the failing input (no silence, duration `10`, padding `0`)
it returns `[]`, not the required `[(0, 10)]`. -/
theorem C1_invert_stub_returns_empty :
    calculate_non_silent_segments [] 10 0 = [] ∧
    calculate_non_silent_segments [] 10 0 ≠ [(0, 10)] := by
  constructor
  · rfl
  · simp [calculate_non_silent_segments]

/-- Claim C2: the specification's worked scenario expects the
SilenceReport `[(2, 3), (7, 7.6)]` with duration `10` and padding `0`
to invert to `[(0, 2), (3, 7), (7.6, 10)]`.  The TODO-placeholder body
of `calculate_non_silent_segments` instead returns `[]` on this
input. -/
theorem C2_invert_stub_scenario :
    calculate_non_silent_segments [(2, 3), (7, 38 / 5)] 10 0 = [] ∧
    calculate_non_silent_segments [(2, 3), (7, 38 / 5)] 10 0 ≠
      [(0, 2), (3, 7), (38 / 5, 10)] := by
  constructor
  · rfl
  · simp [calculate_non_silent_segments]

/-- Claim C6: the specification says `get_video_duration` fails with a
`ProbeError` when the file cannot be opened, lacks a duration field, or
has a non-numeric one, and otherwise returns the file's duration.  The
source body is an unimplemented TODO placeholder: for every path
(including any unopenable one) it returns `0.0` and can raise
nothing — no `ProbeError` class exists anywhere in the source. -/
theorem C6_probe_stub_returns_zero (video_path : String) :
    get_video_duration video_path = 0 :=
  rfl

/-- Claim C7: with an empty list of segment files,
`concatenate_segments` returns failure without invoking the external
engine — no ffmpeg invocation and no ffprobe call — whatever the
engine would have reported. -/
theorem C7_concatenate_empty_fails_without_engine
    (returncode : ℤ) (output_exists : Bool) :
    concatenate_segments [] returncode output_exists =
      { success := false, invoked_ffmpeg := false, ffprobe_calls := 0 } :=
  rfl

/-- Claim C3: for every invocation of `concatenate_segments` that
reaches the external engine (a nonempty segment list), the returned
boolean is `true` exactly when the engine exited with status `0` and
the output file exists afterwards; in particular exit status `0` with a
missing output file yields `false`. -/
theorem C3_concatenate_success_iff (segment_files : List String)
    (returncode : ℤ) (output_exists : Bool)
    (h : segment_files ≠ []) :
    (concatenate_segments segment_files returncode output_exists).success = true ↔
      (returncode = 0 ∧ output_exists = true) := by
  match segment_files with
  | s :: rest =>
    simp only [concatenate_segments, List.isEmpty_cons, Bool.false_eq_true,
      if_false]
    split <;> simp [Bool.and_eq_true, beq_iff_eq]

/-- Witness for C3 at concrete inputs: one segment, exit status `0`,
output missing — the result is failure. -/
theorem C3_concatenate_success_iff_witness :
    (concatenate_segments ["seg0.mp4"] 0 false).success = false := by
  have h := C3_concatenate_success_iff ["seg0.mp4"] 0 false (by simp)
  rcases Bool.eq_false_or_eq_true (concatenate_segments ["seg0.mp4"] 0 false).success
    with hb | hb
  · exact absurd (h.mp hb).2 (by simp)
  · exact hb

/-- Claim C8: `print_summary` reports `time_saved = input - output`,
and a saved percentage of `time_saved / input * 100` when the input
duration is positive and exactly `0` when it is `0` (the division is
guarded); at input `100` and output `80` it reports `20` saved and
`20` percent. -/
theorem C8_print_summary_arithmetic (input_duration output_duration : ℚ) :
    (print_summary input_duration output_duration).1 =
        input_duration - output_duration ∧
    (0 < input_duration →
      (print_summary input_duration output_duration).2 =
        (input_duration - output_duration) / input_duration * 100) ∧
    (input_duration = 0 →
      (print_summary input_duration output_duration).2 = 0) ∧
    print_summary 100 80 = (20, 20) := by
  refine ⟨rfl, ?_, ?_, ?_⟩
  · intro h
    simp [print_summary, if_pos h]
  · intro h
    simp [print_summary, h]
  · norm_num [print_summary]

/-- Witness for C8 at the specification's concrete inputs. -/
theorem C8_print_summary_arithmetic_witness :
    (print_summary 100 80).1 = 20 ∧ (print_summary 100 80).2 = 20 := by
  have h := C8_print_summary_arithmetic 100 80
  refine ⟨by rw [h.1]; norm_num, ?_⟩
  rw [h.2.1 (by norm_num)]
  norm_num

/-- Counterexample to claim C5 as stated: with live progress enabled
(`total_duration = 10 > 0`), two stderr lines parsing to `time=` values
`5` then `3` drive the completion estimate from `5` down to `3` — the
loop assigns each parsed value to `pbar.n` directly, so the estimate
decreases. -/
theorem C5_estimate_can_decrease :
    progressStates 10 0 [some ⟨0, 0, 5⟩, some ⟨0, 0, 3⟩] = [5, 3] ∧
    ¬ List.Chain' (· ≤ ·)
      (progressStates 10 0 [some ⟨0, 0, 5⟩, some ⟨0, 0, 3⟩]) := by
  have h : progressStates 10 0 [some ⟨0, 0, 5⟩, some ⟨0, 0, 3⟩] = [5, 3] := by
    norm_num [progressStates, progressUpdate, parse_time]
  refine ⟨h, ?_⟩
  rw [h]
  norm_num [List.chain'_cons]

/-- Invariant lemma for the progress loop: if the starting position is
below every time value the remaining lines will parse to and below the
expected total, and the parsed time values are pairwise nondecreasing,
then the successive positions are nondecreasing and all bounded by the
expected total. -/
theorem progress_bounded_mono (total : ℚ) :
    ∀ (lines : List (Option TimeMatch)) (n : ℚ),
      (∀ t ∈ lines.filterMap parse_time, n ≤ t) →
      n ≤ total →
      List.Pairwise (· ≤ ·) (lines.filterMap parse_time) →
      List.Chain' (· ≤ ·) (n :: progressStates total n lines) ∧
        ∀ x ∈ progressStates total n lines, x ≤ total := by
  intro lines
  induction lines with
  | nil =>
    intro n _ hn _
    exact ⟨List.chain'_singleton n, by simp [progressStates]⟩
  | cons l ls ih =>
    intro n hlow hn hpw
    have hsteps : progressStates total n (l :: ls) =
        progressUpdate total n l ::
          progressStates total (progressUpdate total n l) ls := rfl
    cases hl : parse_time l with
    | none =>
      have hupd : progressUpdate total n l = n := by
        simp [progressUpdate, hl]
      have hfm : (l :: ls).filterMap parse_time = ls.filterMap parse_time := by
        simp [List.filterMap_cons, hl]
      rw [hfm] at hlow hpw
      obtain ⟨hchain, hbound⟩ := ih n hlow hn hpw
      rw [hsteps, hupd]
      refine ⟨List.chain'_cons.mpr ⟨le_refl n, hchain⟩, ?_⟩
      intro x hx
      rcases List.mem_cons.mp hx with hx | hx
      · exact hx ▸ hn
      · exact hbound x hx
    | some t =>
      have hfm : (l :: ls).filterMap parse_time = t :: ls.filterMap parse_time := by
        simp [List.filterMap_cons, hl]
      rw [hfm] at hlow hpw
      have hnt : n ≤ t := hlow t (List.mem_cons_self t _)
      have hrest : ∀ u ∈ ls.filterMap parse_time, t ≤ u :=
        fun u hu => List.rel_of_pairwise_cons hpw hu
      have hpw' : List.Pairwise (· ≤ ·) (ls.filterMap parse_time) := hpw.of_cons
      by_cases ht : t ≤ total
      · have hupd : progressUpdate total n l = t := by
          simp [progressUpdate, hl, ht]
        obtain ⟨hchain, hbound⟩ := ih t hrest ht hpw'
        rw [hsteps, hupd]
        refine ⟨List.chain'_cons.mpr ⟨hnt, hchain⟩, ?_⟩
        intro x hx
        rcases List.mem_cons.mp hx with hx | hx
        · exact hx ▸ ht
        · exact hbound x hx
      · have hupd : progressUpdate total n l = n := by
          simp [progressUpdate, hl, ht]
        have hlow' : ∀ u ∈ ls.filterMap parse_time, n ≤ u :=
          fun u hu => le_trans hnt (hrest u hu)
        obtain ⟨hchain, hbound⟩ := ih n hlow' hn hpw'
        rw [hsteps, hupd]
        refine ⟨List.chain'_cons.mpr ⟨le_refl n, hchain⟩, ?_⟩
        intro x hx
        rcases List.mem_cons.mp hx with hx | hx
        · exact hx ▸ hn
        · exact hbound x hx

/-- Bound lemma for the progress loop, with no assumption on the
parsed stream: every assignment is guarded by
`current_time <= total_duration`, so a starting position below the
expected total stays below it on every stream, monotone or not. -/
theorem progress_bounded (total : ℚ) :
    ∀ (lines : List (Option TimeMatch)) (n : ℚ), n ≤ total →
      ∀ x ∈ progressStates total n lines, x ≤ total := by
  intro lines
  induction lines with
  | nil =>
    intro n _ x hx
    simp [progressStates] at hx
  | cons l ls ih =>
    intro n hn x hx
    have hsteps : progressStates total n (l :: ls) =
        progressUpdate total n l ::
          progressStates total (progressUpdate total n l) ls := rfl
    rw [hsteps] at hx
    have hupd : progressUpdate total n l ≤ total := by
      cases hl : parse_time l with
      | none => simpa [progressUpdate, hl] using hn
      | some t =>
        by_cases ht : t ≤ total
        · simp [progressUpdate, hl, ht]
        · simpa [progressUpdate, hl, ht] using hn
    rcases List.mem_cons.mp hx with hx | hx
    · exact hx ▸ hupd
    · exact ih (progressUpdate total n l) hupd x hx

/-- Claim C5, amended: during one `run_with_progress` invocation with
live progress enabled (`total_duration > 0`), the completion estimate
is always bounded above by the expected total duration — on every
stream of stderr lines, with no monotonicity assumption; and it never
decreases across successive parsed `time=` lines provided that the
parsed `time=` values are themselves nondecreasing (the loop assigns
each parsed value directly, so a decreasing `time=` sequence decreases
the estimate — see `C5_estimate_can_decrease`). -/
theorem C5_progress_bounded_and_conditionally_monotone
    (total_duration : ℚ) (lines : List (Option TimeMatch))
    (hpos : 0 < total_duration) :
    (∀ x ∈ progressStates total_duration 0 lines, x ≤ total_duration) ∧
    (List.Chain' (· ≤ ·) (lines.filterMap parse_time) →
      (∀ t ∈ lines.filterMap parse_time, 0 ≤ t) →
      List.Chain' (· ≤ ·) (0 :: progressStates total_duration 0 lines)) :=
  ⟨progress_bounded total_duration lines 0 (le_of_lt hpos),
   fun hmono hnonneg =>
     (progress_bounded_mono total_duration lines 0 hnonneg (le_of_lt hpos)
       (List.chain'_iff_pairwise.mp hmono)).1⟩

/-- Witness for the amended C5 at concrete inputs: expected total `10`,
two lines parsing to times `2` then `5`. -/
theorem C5_progress_witness :
    (∀ x ∈ progressStates 10 0 [some ⟨0, 0, 2⟩, some ⟨0, 0, 5⟩], x ≤ 10) ∧
    List.Chain' (· ≤ ·)
      (0 :: progressStates 10 0 [some ⟨0, 0, 2⟩, some ⟨0, 0, 5⟩]) := by
  have h := C5_progress_bounded_and_conditionally_monotone 10
    [some ⟨0, 0, 2⟩, some ⟨0, 0, 5⟩] (by norm_num)
  refine ⟨h.1, h.2 ?_ ?_⟩
  · norm_num [List.filterMap_cons, parse_time, List.chain'_cons]
  · norm_num [List.filterMap_cons, parse_time]

/-- Decomposition lemma for `_format_time`: the three displayed fields
recompose to the floor of the input — every fractional second is
dropped, never rounded up. -/
theorem format_time_fields_sum (s : ℚ) :
    3600 * format_hours s + 60 * format_minutes s + format_secs s = ⌊s⌋ := by
  have hm : format_minutes s = ⌊s / 60⌋ - 60 * ⌊s / 3600⌋ := by
    unfold format_minutes pyMod
    have e : (s - 3600 * (⌊s / 3600⌋ : ℚ)) / 60 =
        s / 60 - ((60 * ⌊s / 3600⌋ : ℤ) : ℚ) := by
      push_cast
      ring
    rw [e, Int.floor_sub_int]
  have h2 : (60 : ℚ) * (s / 60) = s := by ring
  have h1 : ((⌊s / 60⌋ : ℤ) : ℚ) ≤ s / 60 := Int.floor_le (s / 60)
  have hnn : (0 : ℚ) ≤ s - 60 * ⌊s / 60⌋ := by linarith
  have hsec : format_secs s = ⌊s⌋ - 60 * ⌊s / 60⌋ := by
    unfold format_secs pyInt pyMod
    rw [if_pos hnn]
    have e : s - 60 * (⌊s / 60⌋ : ℚ) = s - ((60 * ⌊s / 60⌋ : ℤ) : ℚ) := by
      push_cast
      ring
    rw [e, Int.floor_sub_int]
  unfold format_hours
  rw [hm, hsec]
  ring

/-- Evaluation of `_format_time` at `59.9` seconds. -/
theorem format_time_at_59_9 : _format_time (599 / 10) = "00:59" := by
  have e1 : ⌊(599 : ℚ) / 10 / 3600⌋ = 0 := by
    rw [Int.floor_eq_iff]
    norm_num
  have e3 : ⌊(599 : ℚ) / 10 / 60⌋ = 0 := by
    rw [Int.floor_eq_iff]
    norm_num
  have e4 : ⌊(599 : ℚ) / 10⌋ = 59 := by
    rw [Int.floor_eq_iff]
    norm_num
  have h1 : format_hours (599 / 10 : ℚ) = 0 := by
    unfold format_hours
    exact e1
  have h2 : format_minutes (599 / 10 : ℚ) = 0 := by
    unfold format_minutes pyMod
    rw [e1]
    rw [show ((599 : ℚ) / 10 - 3600 * ((0 : ℤ) : ℚ)) / 60 = 599 / 10 / 60 by
      push_cast; ring]
    exact e3
  have h3 : format_secs (599 / 10 : ℚ) = 59 := by
    unfold format_secs pyInt pyMod
    rw [e3]
    rw [show ((599 : ℚ) / 10 - 60 * ((0 : ℤ) : ℚ)) = 599 / 10 by push_cast; ring]
    rw [if_pos (by norm_num : (0 : ℚ) ≤ 599 / 10)]
    exact e4
  unfold _format_time
  rw [h1, h2, h3]
  decide

/-- Evaluation of `_format_time` at `3599.9` seconds. -/
theorem format_time_at_3599_9 : _format_time (35999 / 10) = "59:59" := by
  have e1 : ⌊(35999 : ℚ) / 10 / 3600⌋ = 0 := by
    rw [Int.floor_eq_iff]
    norm_num
  have e3 : ⌊(35999 : ℚ) / 10 / 60⌋ = 59 := by
    rw [Int.floor_eq_iff]
    norm_num
  have h1 : format_hours (35999 / 10 : ℚ) = 0 := by
    unfold format_hours
    exact e1
  have h2 : format_minutes (35999 / 10 : ℚ) = 59 := by
    unfold format_minutes pyMod
    rw [e1]
    rw [show ((35999 : ℚ) / 10 - 3600 * ((0 : ℤ) : ℚ)) / 60 = 35999 / 10 / 60 by
      push_cast; ring]
    exact e3
  have h3 : format_secs (35999 / 10 : ℚ) = 59 := by
    unfold format_secs pyInt pyMod
    rw [e3]
    rw [show ((35999 : ℚ) / 10 - 60 * ((59 : ℤ) : ℚ)) = 599 / 10 by push_cast; ring]
    rw [if_pos (by norm_num : (0 : ℚ) ≤ 599 / 10)]
    rw [Int.floor_eq_iff]
    norm_num
  unfold _format_time
  rw [h1, h2, h3]
  decide

/-- Claim C10: `_format_time` truncates toward zero instead of
rounding: the three displayed fields always recompose to `⌊seconds⌋`
(so fractional seconds are dropped), `59.9` seconds renders as
`"00:59"`, and `3599.9` seconds renders as `"59:59"`, not
`"01:00:00"`. -/
theorem C10_format_time_truncates :
    (∀ s : ℚ, 0 ≤ s →
      3600 * format_hours s + 60 * format_minutes s + format_secs s = ⌊s⌋) ∧
    _format_time (599 / 10) = "00:59" ∧
    _format_time (35999 / 10) = "59:59" ∧
    _format_time (35999 / 10) ≠ "01:00:00" := by
  refine ⟨fun s _ => format_time_fields_sum s, format_time_at_59_9,
    format_time_at_3599_9, ?_⟩
  rw [format_time_at_3599_9]
  decide

/-- Witness for C10: the truncation identity instantiated at `59.9`
seconds. -/
theorem C10_format_time_truncates_witness :
    3600 * format_hours (599 / 10) + 60 * format_minutes (599 / 10) +
      format_secs (599 / 10) = ⌊(599 : ℚ) / 10⌋ :=
  C10_format_time_truncates.1 (599 / 10) (by norm_num)

/-- Helper: `modifyAt` preserves length. -/
theorem modifyAt_length (f : α → α) :
    ∀ (l : List α) (i : ℕ), (modifyAt f l i).length = l.length := by
  intro l
  induction l with
  | nil => intro i; rfl
  | cons a t ih =>
    intro i
    cases i with
    | zero => rfl
    | succ n => simp [modifyAt, ih n]

/-- Helper: element lookup after `modifyAt`: the modified index sees
`f` applied, every other index is unchanged. -/
theorem modifyAt_getElem? (f : α → α) :
    ∀ (l : List α) (i j : ℕ),
      (modifyAt f l i)[j]? = if i = j then (l[j]?).map f else l[j]? := by
  intro l
  induction l with
  | nil => intro i j; simp [modifyAt]
  | cons a t ih =>
    intro i j
    cases i with
    | zero =>
      cases j with
      | zero => simp [modifyAt]
      | succ m => simp [modifyAt]
    | succ n =>
      cases j with
      | zero => simp [modifyAt]
      | succ m =>
        simp only [modifyAt, List.getElem?_cons_succ, ih n m]
        by_cases hnm : n = m
        · simp [hnm]
        · simp [hnm, fun hc => hnm (Nat.succ_injective hc)]

/-- Helper: an invariant reporter state has at most one open bar. -/
theorem ProgressReporter.Inv.atMostOne {r : ProgressReporter} (h : r.Inv) :
    r.atMostOneOpen := by
  intro i j bi bj hi hj hoi hoj
  have h1 := h.2.1 i bi hi hoi
  have h2 := h.2.1 j bj hj hoj
  rw [h1] at h2
  exact Option.some.inj h2

/-- Helper: `start_progress` with a positive total yields a well-formed
state: the freshly created bar is current and truthy, and every other
bar is closed. -/
theorem start_progress_Inv {r : ProgressReporter} (hinv : r.Inv)
    (description : String) (total : ℤ) (htotal : 0 < total) :
    (r.start_progress description total).Inv := by
  cases hc : r.current_bar with
  | none =>
    have hbars : (r.start_progress description total).bars =
        r.bars ++ [⟨total, description, 0, true⟩] := by
      simp [ProgressReporter.start_progress, hc]
    have hcur : (r.start_progress description total).current_bar =
        some r.bars.length := by
      simp [ProgressReporter.start_progress, hc]
    refine ⟨?_, ?_, ?_⟩
    · intro i h
      rw [hcur] at h
      rw [hbars]
      simp [← Option.some.inj h]
    · intro j b hjb hopen
      rw [hbars, List.getElem?_append] at hjb
      by_cases hj : j < r.bars.length
      · rw [if_pos hj] at hjb
        have := hinv.2.1 j b hjb hopen
        rw [hc] at this
        exact absurd this (by simp)
      · rw [if_neg hj] at hjb
        have hj0 : j - r.bars.length = 0 := by
          by_contra h0
          rw [List.getElem?_eq_none (by simp; omega)] at hjb
          exact Option.noConfusion hjb
        have hjlen : j = r.bars.length := by omega
        rw [hcur, hjlen]
    · intro j b hjb hopen
      rw [hbars, List.getElem?_append] at hjb
      by_cases hj : j < r.bars.length
      · rw [if_pos hj] at hjb
        exact hinv.2.2 j b hjb hopen
      · rw [if_neg hj] at hjb
        have hj0 : j - r.bars.length = 0 := by
          by_contra h0
          rw [List.getElem?_eq_none (by simp; omega)] at hjb
          exact Option.noConfusion hjb
        rw [hj0] at hjb
        have hb : b = ⟨total, description, 0, true⟩ := by
          simpa using hjb.symm
        rw [hb]
        exact htotal
  | some i =>
    have hilen : i < r.bars.length := hinv.1 i hc
    rcases List.getElem?_eq_some.mpr ⟨hilen, rfl⟩ with hb0
    by_cases htr : (0 : ℤ) < (r.bars[i]).total
    · have hclen : (closeBarAt r.bars i).length = r.bars.length := by
        unfold closeBarAt
        exact modifyAt_length _ r.bars i
      have hbars : (r.start_progress description total).bars =
          closeBarAt r.bars i ++ [⟨total, description, 0, true⟩] := by
        simp [ProgressReporter.start_progress, hc, hb0, TqdmBar.truthy, htr]
      have hcur : (r.start_progress description total).current_bar =
          some (closeBarAt r.bars i).length := by
        simp [ProgressReporter.start_progress, hc, hb0, TqdmBar.truthy, htr]
      refine ⟨?_, ?_, ?_⟩
      · intro i' h
        rw [hcur] at h
        rw [hbars]
        simp [← Option.some.inj h]
      · intro j b hjb hopen
        rw [hbars, List.getElem?_append] at hjb
        by_cases hj : j < (closeBarAt r.bars i).length
        · rw [if_pos hj] at hjb
          unfold closeBarAt at hjb
          rw [modifyAt_getElem? _ r.bars i j] at hjb
          by_cases hij : i = j
          · rw [if_pos hij] at hjb
            rcases Option.map_eq_some'.mp hjb with ⟨b1, _, hb⟩
            rw [← hb] at hopen
            exact absurd hopen (by simp)
          · rw [if_neg hij] at hjb
            have := hinv.2.1 j b hjb hopen
            rw [hc] at this
            exact absurd (Option.some.inj this) hij
        · rw [if_neg hj] at hjb
          have hj0 : j - (closeBarAt r.bars i).length = 0 := by
            by_contra h0
            rw [List.getElem?_eq_none (by simp; omega)] at hjb
            exact Option.noConfusion hjb
          have hjlen : j = (closeBarAt r.bars i).length := by omega
          rw [hcur, hjlen]
      · intro j b hjb hopen
        rw [hbars, List.getElem?_append] at hjb
        by_cases hj : j < (closeBarAt r.bars i).length
        · rw [if_pos hj] at hjb
          unfold closeBarAt at hjb
          rw [modifyAt_getElem? _ r.bars i j] at hjb
          by_cases hij : i = j
          · rw [if_pos hij] at hjb
            rcases Option.map_eq_some'.mp hjb with ⟨b1, _, hb⟩
            rw [← hb] at hopen
            exact absurd hopen (by simp)
          · rw [if_neg hij] at hjb
            exact hinv.2.2 j b hjb hopen
        · rw [if_neg hj] at hjb
          have hj0 : j - (closeBarAt r.bars i).length = 0 := by
            by_contra h0
            rw [List.getElem?_eq_none (by simp; omega)] at hjb
            exact Option.noConfusion hjb
          rw [hj0] at hjb
          have hb : b = ⟨total, description, 0, true⟩ := by
            simpa using hjb.symm
          rw [hb]
          exact htotal
    · have hbars : (r.start_progress description total).bars =
          r.bars ++ [⟨total, description, 0, true⟩] := by
        simp [ProgressReporter.start_progress, hc, hb0, TqdmBar.truthy, htr]
      have hcur : (r.start_progress description total).current_bar =
          some r.bars.length := by
        simp [ProgressReporter.start_progress, hc, hb0, TqdmBar.truthy, htr]
      refine ⟨?_, ?_, ?_⟩
      · intro i' h
        rw [hcur] at h
        rw [hbars]
        simp [← Option.some.inj h]
      · intro j b hjb hopen
        rw [hbars, List.getElem?_append] at hjb
        by_cases hj : j < r.bars.length
        · rw [if_pos hj] at hjb
          have hcurj := hinv.2.1 j b hjb hopen
          rw [hc] at hcurj
          have hij : j = i := (Option.some.inj hcurj).symm
          rw [hij, hb0] at hjb
          have hbeq : r.bars[i] = b := Option.some.inj hjb
          rw [← hbeq] at hopen
          exact absurd (hinv.2.2 i (r.bars[i]) hb0 hopen) htr
        · rw [if_neg hj] at hjb
          have hj0 : j - r.bars.length = 0 := by
            by_contra h0
            rw [List.getElem?_eq_none (by simp; omega)] at hjb
            exact Option.noConfusion hjb
          have hjlen : j = r.bars.length := by omega
          rw [hcur, hjlen]
      · intro j b hjb hopen
        rw [hbars, List.getElem?_append] at hjb
        by_cases hj : j < r.bars.length
        · rw [if_pos hj] at hjb
          exact hinv.2.2 j b hjb hopen
        · rw [if_neg hj] at hjb
          have hj0 : j - r.bars.length = 0 := by
            by_contra h0
            rw [List.getElem?_eq_none (by simp; omega)] at hjb
            exact Option.noConfusion hjb
          rw [hj0] at hjb
          have hb : b = ⟨total, description, 0, true⟩ := by
            simpa using hjb.symm
          rw [hb]
          exact htotal

/-- Helper: `update_progress` preserves well-formedness (when the
current bar is truthy it only moves that bar's position; when it is
falsy or absent the state is unchanged). -/
theorem update_progress_Inv {r : ProgressReporter} (hinv : r.Inv)
    (amount : ℤ) : (r.update_progress amount).Inv := by
  cases hc : r.current_bar with
  | none =>
    have heq : r.update_progress amount = r := by
      simp [ProgressReporter.update_progress, hc]
    rw [heq]
    exact hinv
  | some i =>
    have hilen : i < r.bars.length := hinv.1 i hc
    rcases List.getElem?_eq_some.mpr ⟨hilen, rfl⟩ with hb0
    by_cases htr : (0 : ℤ) < (r.bars[i]).total
    · have hbars : (r.update_progress amount).bars =
          modifyAt (fun b => { b with n := b.n + amount }) r.bars i := by
        simp [ProgressReporter.update_progress, hc, hb0, TqdmBar.truthy, htr]
      have hcur : (r.update_progress amount).current_bar = r.current_bar := by
        simp [ProgressReporter.update_progress, hc, hb0, TqdmBar.truthy, htr]
      refine ⟨?_, ?_, ?_⟩
      · intro i' h
        rw [hcur] at h
        rw [hbars]
        rw [modifyAt_length]
        exact hinv.1 i' h
      · intro j b hjb hopen
        rw [hbars, modifyAt_getElem?] at hjb
        rw [hcur]
        by_cases hij : i = j
        · rw [if_pos hij] at hjb
          rcases Option.map_eq_some'.mp hjb with ⟨b1, hb1, hb⟩
          have hopen1 : b1.is_open = true := by
            rw [← hb] at hopen
            simpa using hopen
          exact hinv.2.1 j b1 hb1 hopen1
        · rw [if_neg hij] at hjb
          exact hinv.2.1 j b hjb hopen
      · intro j b hjb hopen
        rw [hbars, modifyAt_getElem?] at hjb
        by_cases hij : i = j
        · rw [if_pos hij] at hjb
          rcases Option.map_eq_some'.mp hjb with ⟨b1, hb1, hb⟩
          have hopen1 : b1.is_open = true := by
            rw [← hb] at hopen
            simpa using hopen
          have h1 := hinv.2.2 j b1 hb1 hopen1
          rw [← hb]
          simpa using h1
        · rw [if_neg hij] at hjb
          exact hinv.2.2 j b hjb hopen
    · have heq : r.update_progress amount = r := by
        simp [ProgressReporter.update_progress, hc, hb0, TqdmBar.truthy, htr]
      rw [heq]
      exact hinv

/-- Helper: `finish_progress` preserves well-formedness (a truthy
current bar is closed and cleared; a falsy or absent one leaves the
state unchanged, and by well-formedness a falsy current bar is already
closed). -/
theorem finish_progress_Inv {r : ProgressReporter} (hinv : r.Inv) :
    r.finish_progress.Inv := by
  cases hc : r.current_bar with
  | none =>
    have heq : r.finish_progress = r := by
      simp [ProgressReporter.finish_progress, hc]
    rw [heq]
    exact hinv
  | some i =>
    have hilen : i < r.bars.length := hinv.1 i hc
    rcases List.getElem?_eq_some.mpr ⟨hilen, rfl⟩ with hb0
    by_cases htr : (0 : ℤ) < (r.bars[i]).total
    · have hbars : r.finish_progress.bars = closeBarAt r.bars i := by
        simp [ProgressReporter.finish_progress, hc, hb0, TqdmBar.truthy, htr]
      have hcur : r.finish_progress.current_bar = none := by
        simp [ProgressReporter.finish_progress, hc, hb0, TqdmBar.truthy, htr]
      refine ⟨?_, ?_, ?_⟩
      · intro i' h
        rw [hcur] at h
        exact Option.noConfusion h
      · intro j b hjb hopen
        rw [hbars] at hjb
        unfold closeBarAt at hjb
        rw [modifyAt_getElem?] at hjb
        by_cases hij : i = j
        · rw [if_pos hij] at hjb
          rcases Option.map_eq_some'.mp hjb with ⟨b1, _, hb⟩
          rw [← hb] at hopen
          exact absurd hopen (by simp)
        · rw [if_neg hij] at hjb
          have := hinv.2.1 j b hjb hopen
          rw [hc] at this
          exact absurd (Option.some.inj this) hij
      · intro j b hjb hopen
        rw [hbars] at hjb
        unfold closeBarAt at hjb
        rw [modifyAt_getElem?] at hjb
        by_cases hij : i = j
        · rw [if_pos hij] at hjb
          rcases Option.map_eq_some'.mp hjb with ⟨b1, _, hb⟩
          rw [← hb] at hopen
          exact absurd hopen (by simp)
        · rw [if_neg hij] at hjb
          exact hinv.2.2 j b hjb hopen
    · have heq : r.finish_progress = r := by
        simp [ProgressReporter.finish_progress, hc, hb0, TqdmBar.truthy, htr]
      rw [heq]
      exact hinv

/-- Helper: under well-formedness, after `start_progress` the
previously current bar is closed: a truthy one is closed by the call,
and a falsy one was already closed (open bars have positive total). -/
theorem start_progress_closes_current {r : ProgressReporter} (hinv : r.Inv)
    (description : String) (total : ℤ) (i : ℕ)
    (hc : r.current_bar = some i) :
    ∃ b, (r.start_progress description total).bars[i]? = some b ∧
      b.is_open = false := by
  have hilen : i < r.bars.length := hinv.1 i hc
  rcases List.getElem?_eq_some.mpr ⟨hilen, rfl⟩ with hb0
  by_cases htr : (0 : ℤ) < (r.bars[i]).total
  · have hclen : (closeBarAt r.bars i).length = r.bars.length := by
      unfold closeBarAt
      exact modifyAt_length _ r.bars i
    have hbars : (r.start_progress description total).bars =
        closeBarAt r.bars i ++ [⟨total, description, 0, true⟩] := by
      simp [ProgressReporter.start_progress, hc, hb0, TqdmBar.truthy, htr]
    rw [hbars, List.getElem?_append, if_pos (by omega)]
    unfold closeBarAt
    rw [modifyAt_getElem? _ r.bars i i, if_pos rfl, hb0]
    exact ⟨_, rfl, rfl⟩
  · have hbars : (r.start_progress description total).bars =
        r.bars ++ [⟨total, description, 0, true⟩] := by
      simp [ProgressReporter.start_progress, hc, hb0, TqdmBar.truthy, htr]
    refine ⟨r.bars[i], ?_, ?_⟩
    · rw [hbars, List.getElem?_append, if_pos hilen]
      exact hb0
    · cases hio : (r.bars[i]).is_open
      · rfl
      · exact absurd (hinv.2.2 i (r.bars[i]) hb0 hio) htr

/-- Counterexample to claim C9 as stated: `if self.current_bar:`
consults `tqdm.__bool__`, which is `total > 0`.  Starting a bar with
total `0` and then starting another bar skips the close (the current
bar is falsy), leaving BOTH bars open — more than one progress
indicator is active. -/
theorem C9_zero_total_bar_stays_open :
    ((ProgressReporter.start_progress
        (ProgressReporter.start_progress ⟨false, [], none⟩ "first" 0)
        "second" 5).bars[0]? = some ⟨0, "first", 0, true⟩ ∧
     (ProgressReporter.start_progress
        (ProgressReporter.start_progress ⟨false, [], none⟩ "first" 0)
        "second" 5).bars[1]? = some ⟨5, "second", 0, true⟩) ∧
    ¬ (ProgressReporter.start_progress
        (ProgressReporter.start_progress ⟨false, [], none⟩ "first" 0)
        "second" 5).atMostOneOpen := by
  refine ⟨⟨rfl, rfl⟩, ?_⟩
  intro h
  exact absurd
    (h 0 1 ⟨0, "first", 0, true⟩ ⟨5, "second", 0, true⟩ rfl rfl rfl rfl)
    (by decide)

/-- Claim C9, amended: at most one progress indicator is active at any
time PROVIDED every bar is started with a positive total: from any
well-formed state, `start_progress` with positive total leaves the
previously current bar closed (it closes a truthy one; a falsy one was
already closed) before creating the new one, and `start_progress`,
`update_progress` and `finish_progress` preserve well-formedness and
hence the at-most-one-open-bar property.  Without the proviso the
invariant fails: see `C9_zero_total_bar_stays_open`. -/
theorem C9_single_active_indicator (r : ProgressReporter)
    (description : String) (total amount : ℤ) (hinv : r.Inv)
    (htotal : 0 < total) :
    (r.start_progress description total).Inv ∧
    (r.update_progress amount).Inv ∧
    r.finish_progress.Inv ∧
    (r.start_progress description total).atMostOneOpen ∧
    (r.update_progress amount).atMostOneOpen ∧
    r.finish_progress.atMostOneOpen ∧
    (∀ i, r.current_bar = some i →
      ∃ b, (r.start_progress description total).bars[i]? = some b ∧
        b.is_open = false) :=
  ⟨start_progress_Inv hinv description total htotal,
   update_progress_Inv hinv amount,
   finish_progress_Inv hinv,
   (start_progress_Inv hinv description total htotal).atMostOne,
   (update_progress_Inv hinv amount).atMostOne,
   (finish_progress_Inv hinv).atMostOne,
   fun i hc => start_progress_closes_current hinv description total i hc⟩

/-- Witness for the amended C9: the fresh reporter state (no bars, no
current bar) is well-formed and the new total `3` is positive, so the
claim theorem applies to it. -/
theorem C9_single_active_indicator_witness :
    (ProgressReporter.start_progress ⟨false, [], none⟩ "probe" 3).Inv ∧
    (ProgressReporter.update_progress ⟨false, [], none⟩ 1).Inv ∧
    (ProgressReporter.finish_progress ⟨false, [], none⟩).Inv ∧
    (ProgressReporter.start_progress ⟨false, [], none⟩ "probe" 3).atMostOneOpen ∧
    (ProgressReporter.update_progress ⟨false, [], none⟩ 1).atMostOneOpen ∧
    (ProgressReporter.finish_progress ⟨false, [], none⟩).atMostOneOpen ∧
    (∀ i, (ProgressReporter.mk false [] none).current_bar = some i →
      ∃ b, (ProgressReporter.start_progress ⟨false, [], none⟩ "probe" 3).bars[i]? =
          some b ∧ b.is_open = false) :=
  C9_single_active_indicator ⟨false, [], none⟩ "probe" 3 1
    ⟨fun i h => Option.noConfusion h, fun j b hjb => by simp at hjb,
     fun j b hjb => by simp at hjb⟩
    (by norm_num)

/-- Helper: with sufficient fuel, `decDigitsRev` computes the standard
little-endian base-10 digit list. -/
theorem decDigitsRev_eq_digits :
    ∀ (fuel n : ℕ), n ≤ fuel → decDigitsRev fuel n = Nat.digits 10 n := by
  intro fuel
  induction fuel with
  | zero =>
    intro n hn
    have h0 : n = 0 := Nat.le_zero.mp hn
    rw [h0]
    simp [decDigitsRev]
  | succ f ih =>
    intro n hn
    cases n with
    | zero => simp [decDigitsRev]
    | succ m =>
      have hdiv : (m + 1) / 10 < m + 1 := Nat.div_lt_self (Nat.succ_pos m) (by norm_num)
      have hle : (m + 1) / 10 ≤ f := by omega
      rw [Nat.digits_def' (by norm_num : 1 < 10) (Nat.succ_pos m)]
      show ((m + 1) % 10) :: decDigitsRev f ((m + 1) / 10) = _
      rw [ih ((m + 1) / 10) hle]

/-- Helper: `digitChar` is injective below `10`. -/
theorem digitChar_inj_lt :
    ∀ x, x < 10 → ∀ y, y < 10 → digitChar x = digitChar y → x = y := by
  decide

/-- Helper: mapping `digitChar` over digit lists is injective. -/
theorem map_digitChar_inj :
    ∀ (l1 l2 : List ℕ), (∀ x ∈ l1, x < 10) → (∀ x ∈ l2, x < 10) →
      l1.map digitChar = l2.map digitChar → l1 = l2 := by
  intro l1
  induction l1 with
  | nil =>
    intro l2 _ _ h
    cases l2 with
    | nil => rfl
    | cons b t => exact absurd h (by simp)
  | cons a t ih =>
    intro l2 h1 h2 h
    cases l2 with
    | nil => exact absurd h (by simp)
    | cons b t2 =>
      simp only [List.map_cons, List.cons.injEq] at h
      have ha : a = b :=
        digitChar_inj_lt a (h1 a (List.mem_cons_self a t)) b
          (h2 b (List.mem_cons_self b t2)) h.1
      have ht : t = t2 :=
        ih t2 (fun x hx => h1 x (List.mem_cons_of_mem a hx))
          (fun x hx => h2 x (List.mem_cons_of_mem b hx)) h.2
      rw [ha, ht]

/-- Helper: `String` append acts as list append on the character
data. -/
theorem str_data_append (s t : String) : (s ++ t).data = s.data ++ t.data :=
  rfl

/-- Helper: strings with equal character data are equal. -/
theorem str_eq_of_data {s t : String} (h : s.data = t.data) : s = t := by
  cases s
  cases t
  exact congrArg String.mk h

/-- Helper: the decimal rendering of any natural number is a nonempty
string. -/
theorem natToString_length_pos (n : ℕ) : 0 < (natToString n).data.length := by
  unfold natToString
  by_cases hn : n = 0
  · rw [if_pos hn]
    decide
  · rw [if_neg hn]
    show 0 < ((decDigitsRev n n).reverse.map digitChar).length
    rw [decDigitsRev_eq_digits n n (le_refl n)]
    simp [List.length_reverse, List.length_pos,
      Nat.digits_ne_nil_iff_ne_zero.mpr hn]

/-- Helper: the decimal rendering is injective on positive numbers. -/
theorem natToString_inj {a b : ℕ} (ha : a ≠ 0) (hb : b ≠ 0)
    (h : natToString a = natToString b) : a = b := by
  unfold natToString at h
  rw [if_neg ha, if_neg hb] at h
  have hdata : ((decDigitsRev a a).reverse.map digitChar) =
      ((decDigitsRev b b).reverse.map digitChar) := congrArg String.data h
  rw [decDigitsRev_eq_digits a a (le_refl a),
    decDigitsRev_eq_digits b b (le_refl b)] at hdata
  have hb10 : ∀ x ∈ (Nat.digits 10 a).reverse, x < 10 := fun x hx =>
    Nat.digits_lt_base (by norm_num) (List.mem_reverse.mp hx)
  have hb10' : ∀ x ∈ (Nat.digits 10 b).reverse, x < 10 := fun x hx =>
    Nat.digits_lt_base (by norm_num) (List.mem_reverse.mp hx)
  have hrev := map_digitChar_inj _ _ hb10 hb10' hdata
  have hdig : Nat.digits 10 a = Nat.digits 10 b :=
    List.reverse_injective hrev
  have := congrArg (Nat.ofDigits 10) hdig
  rwa [Nat.ofDigits_digits, Nat.ofDigits_digits] at this

/-- Helper: the base candidate name differs from every numbered
candidate (their lengths differ). -/
theorem candName_zero_ne_succ (stem sfx ext : String) (k : ℕ) :
    candName stem sfx ext 0 ≠ candName stem sfx ext (k + 1) := by
  intro h
  have hd := congrArg String.data h
  simp only [candName, str_data_append] at hd
  have hlen := congrArg List.length hd
  simp only [List.length_append] at hlen
  have h1 : ("_" : String).data.length = 1 := rfl
  have h2 := natToString_length_pos (k + 1)
  omega

/-- Helper: numbered candidate names with different counters differ
(the decimal counter renderings differ). -/
theorem candName_succ_inj (stem sfx ext : String) {a b : ℕ}
    (h : candName stem sfx ext (a + 1) = candName stem sfx ext (b + 1)) :
    a = b := by
  have hu : ("_" : String).data = ['_'] := rfl
  have hd := congrArg String.data h
  simp only [candName, str_data_append, hu, List.append_assoc,
    List.singleton_append] at hd
  have h1 := List.append_cancel_left hd
  have h2 := List.append_cancel_left h1
  injection h2 with h3 h4
  have h5 := List.append_cancel_right h4
  have h6 : natToString (a + 1) = natToString (b + 1) := str_eq_of_data h5
  have := natToString_inj (Nat.succ_ne_zero a) (Nat.succ_ne_zero b) h6
  omega

/-- Helper: the candidate-name sequence is injective. -/
theorem candName_inj (stem sfx ext : String) :
    Function.Injective (candName stem sfx ext) := by
  intro a b h
  match a, b with
  | 0, 0 => rfl
  | 0, b + 1 => exact absurd h (candName_zero_ne_succ stem sfx ext b)
  | a + 1, 0 => exact absurd h.symm (candName_zero_ne_succ stem sfx ext a)
  | a + 1, b + 1 => exact congrArg (· + 1) (candName_succ_inj stem sfx ext h)

/-- Helper: among the first `names.length + 2` candidate names, at
least one is not among the existing names (pigeonhole: the candidates
are pairwise distinct). -/
theorem candName_exists_free (stem sfx ext : String) (names : List String) :
    ∃ j, j < names.length + 2 ∧ candName stem sfx ext j ∉ names := by
  by_contra hcon
  push_neg at hcon
  have hnodup : ((List.range (names.length + 2)).map (candName stem sfx ext)).Nodup :=
    (List.nodup_range _).map (candName_inj stem sfx ext)
  have hsub : ∀ x ∈ (List.range (names.length + 2)).map (candName stem sfx ext),
      x ∈ names := by
    intro x hx
    rcases List.mem_map.mp hx with ⟨j, hj, rfl⟩
    exact hcon j (List.mem_range.mp hj)
  have h1 : ((List.range (names.length + 2)).map (candName stem sfx ext)).toFinset.card =
      names.length + 2 := by
    rw [List.toFinset_card_of_nodup hnodup]
    simp
  have h2 : ((List.range (names.length + 2)).map (candName stem sfx ext)).toFinset ⊆
      names.toFinset := by
    intro x hx
    rw [List.mem_toFinset] at hx ⊢
    exact hsub x hx
  have h3 := Finset.card_le_card h2
  have h4 := List.toFinset_card_le names
  omega

/-- Helper: whenever some candidate within the fuel range is free, the
probe loop returns the first free candidate: the result is not among
the existing names, and every candidate tried before it exists. -/
theorem searchFree_spec (names : List String) (cand : ℕ → String) :
    ∀ (fuel k : ℕ), (∃ j, j < fuel ∧ cand (k + j) ∉ names) →
      searchFree names cand fuel k ∉ names ∧
      ∃ j, searchFree names cand fuel k = cand (k + j) ∧
        ∀ i, i < j → cand (k + i) ∈ names := by
  intro fuel
  induction fuel with
  | zero =>
    intro k hex
    rcases hex with ⟨j, hj, _⟩
    exact absurd hj (Nat.not_lt_zero j)
  | succ f ih =>
    intro k hex
    rcases hex with ⟨j, hj, hfree⟩
    by_cases hk : cand k ∈ names
    · have hj0 : j ≠ 0 := by
        intro h0
        rw [h0, Nat.add_zero] at hfree
        exact hfree hk
      have hex' : ∃ j', j' < f ∧ cand (k + 1 + j') ∉ names := by
        refine ⟨j - 1, by omega, ?_⟩
        rw [show k + 1 + (j - 1) = k + j by omega]
        exact hfree
      obtain ⟨hnot, j'', heq, hall⟩ := ih (k + 1) hex'
      have hstep : searchFree names cand (f + 1) k = searchFree names cand f (k + 1) := by
        simp [searchFree, hk]
      rw [hstep]
      refine ⟨hnot, j'' + 1, ?_, ?_⟩
      · rw [heq, show k + 1 + j'' = k + (j'' + 1) by omega]
      · intro i hi
        cases i with
        | zero => rw [Nat.add_zero]; exact hk
        | succ i' =>
          rw [show k + (i' + 1) = k + 1 + i' by omega]
          exact hall i' (by omega)
    · have hstep : searchFree names cand (f + 1) k = cand k := by
        simp [searchFree, hk]
      rw [hstep]
      exact ⟨hk, 0, by rw [Nat.add_zero], fun i hi => absurd hi (Nat.not_lt_zero i)⟩

/-- Claim C4: `generate_output_path` returns a name that does not
exist, obtained by first trying `stem + suffix + ext` and then
appending `_1`, `_2`, ... until a free name is found (every candidate
tried before the returned one exists); concretely, for `video.mp4`
with `video_cut.mp4` taken it returns `video_cut_1.mp4`, and with
`video_cut_1.mp4` also taken it returns `video_cut_2.mp4`. -/
theorem C4_generate_output_path_collision_avoidance :
    (∀ (names : List String) (stem ext sfx : String),
      generate_output_path names stem ext sfx ∉ names ∧
      ∃ k, generate_output_path names stem ext sfx = candName stem sfx ext k ∧
        ∀ i, i < k → candName stem sfx ext i ∈ names) ∧
    generate_output_path ["video_cut.mp4"] "video" ".mp4" "_cut" =
      "video_cut_1.mp4" ∧
    generate_output_path ["video_cut.mp4", "video_cut_1.mp4"] "video" ".mp4" "_cut" =
      "video_cut_2.mp4" := by
  refine ⟨?_, by decide, by decide⟩
  intro names stem ext sfx
  rcases candName_exists_free stem sfx ext names with ⟨j, hj, hfree⟩
  have hex : ∃ j', j' < names.length + 2 ∧
      candName stem sfx ext (0 + j') ∉ names :=
    ⟨j, hj, by rwa [Nat.zero_add]⟩
  obtain ⟨hnot, k, heq, hall⟩ :=
    searchFree_spec names (candName stem sfx ext) (names.length + 2) 0 hex
  refine ⟨hnot, k, ?_, ?_⟩
  · unfold generate_output_path
    rw [heq, Nat.zero_add]
  · intro i hi
    have := hall i hi
    rwa [Nat.zero_add] at this

/-- Witness for C4: the returned name for the first concrete scenario
is indeed not among the existing names. -/
theorem C4_generate_output_path_collision_avoidance_witness :
    generate_output_path ["video_cut.mp4"] "video" ".mp4" "_cut" ∉
      ["video_cut.mp4"] :=
  (C4_generate_output_path_collision_avoidance.1
    ["video_cut.mp4"] "video" ".mp4" "_cut").1
